import Mathlib

/-!
# Verification of the protein-sequence preprocessing pipeline

A shallow embedding of `Annotation_protein_filter.py` and proofs about it.
Python strings are modelled as lists of characters (`Str`), Python's
per-character `str.upper()` as `List.map Char.toUpper` (the sequences the
program handles are ASCII amino-acid letters), the `standard_aa` set as a
list of characters with membership testing, and Biopython `SeqRecord`s as a
structure with `id`, `description` and `seq` fields.
-/

/-- A Python string, modelled as its list of characters. -/
abbrev Str := List Char

/-- A Biopython `SeqRecord` as used by the pipeline: an identifier, a
description (full header), and the sequence string. -/
structure SeqRecord where
  id : Str
  description : Str
  seq : Str
deriving DecidableEq, Repr

/-- Python `str.upper()` applied to a sequence (per-character ASCII
uppercasing, as the program applies it to amino-acid letters):
`seq = str(record.seq).upper()` (line 11). -/
def pyUpper (s : Str) : Str := s.map Char.toUpper

/-- The membership test `set(seq).issubset(standard_aa)` of line 12, where
`seq` is the upper-cased sequence: every character of the upper-cased
sequence belongs to the allowed alphabet. -/
def keepB (standard_aa : List Char) (r : SeqRecord) : Bool :=
  (pyUpper r.seq).all (fun c => standard_aa.contains c)

/-- The pair `(record.id, seq)` appended to `removed` on line 15, with `seq`
the upper-cased sequence. -/
def removedEntry (r : SeqRecord) : Str × Str := (r.id, pyUpper r.seq)

/-- `process_chunk(records, standard_aa)` (lines 8-16): partition a batch
into the kept records (preserved verbatim) and the removed
(identifier, upper-cased sequence) pairs, both in batch order. -/
def process_chunk : List SeqRecord → List Char → List SeqRecord × List (Str × Str)
  | [], _ => ([], [])
  | r :: rs, standard_aa =>
    let rest := process_chunk rs standard_aa
    if keepB standard_aa r then (r :: rest.1, rest.2)
    else (rest.1, removedEntry r :: rest.2)

/-- The default alphabet `set("ACDEFGHIKLMNPQRSTVWY")` of line 41. -/
def standardAA : List Char := "ACDEFGHIKLMNPQRSTVWY".data

/-- Structural characterisation of `process_chunk`: the kept side is the
sublist of records passing the alphabet test and the removed side is the
image of the failing records under `removedEntry`, both in input order. -/
theorem process_chunk_eq (records : List SeqRecord) (aa : List Char) :
    process_chunk records aa =
      (records.filter (fun r => keepB aa r),
        (records.filter (fun r => !keepB aa r)).map removedEntry) := by
  induction records with
  | nil => rfl
  | cons r rs ih =>
    by_cases h : keepB aa r
    · simp [process_chunk, ih, List.filter_cons, h]
    · simp [process_chunk, ih, List.filter_cons, h]

/-- The boolean alphabet test unfolded to a logical statement. -/
theorem keepB_iff (aa : List Char) (r : SeqRecord) :
    keepB aa r = true ↔ ∀ c ∈ pyUpper r.seq, c ∈ aa := by
  simp [keepB]

/-- The alphabet test only looks at the upper-cased sequence, so two records
with the same upper-cased sequence are classified identically. -/
theorem keepB_congr (aa : List Char) (r r' : SeqRecord)
    (h : pyUpper r.seq = pyUpper r'.seq) : keepB aa r = keepB aa r' := by
  simp only [keepB, h]

/-- Lengths of the two filtered sides add up to the input length. -/
theorem length_filter_add_length_not (l : List SeqRecord) (p : SeqRecord → Bool) :
    (l.filter p).length + (l.filter (fun r => !p r)).length = l.length := by
  exact (List.length_eq_length_filter_add p).symm

/-- C1. The alphabet filter partitions every batch exhaustively and
disjointly: `|kept| + |removed| = |input records|`, and every input record
ends up in exactly one of the kept list (as the record itself, verbatim) or
the removed list (as its `(identifier, upper-cased sequence)` pair). -/
theorem process_chunk_partition (records : List SeqRecord) (aa : List Char) :
    (process_chunk records aa).1.length + (process_chunk records aa).2.length
        = records.length
    ∧ ∀ r ∈ records,
        (r ∈ (process_chunk records aa).1
            ∧ removedEntry r ∉ (process_chunk records aa).2)
        ∨ (r ∉ (process_chunk records aa).1
            ∧ removedEntry r ∈ (process_chunk records aa).2) := by
  rw [process_chunk_eq]
  constructor
  · simpa using length_filter_add_length_not records (fun r => keepB aa r)
  · intro r hr
    by_cases h : keepB aa r
    · left
      constructor
      · exact List.mem_filter.mpr ⟨hr, h⟩
      · intro hmem
        rcases List.mem_map.mp hmem with ⟨r', hr', hent⟩
        rcases List.mem_filter.mp hr' with ⟨_, hker'⟩
        have hseq : pyUpper r'.seq = pyUpper r.seq := congrArg Prod.snd hent
        have := keepB_congr aa r' r hseq
        rw [this, h] at hker'
        exact absurd hker' (by simp)
    · right
      constructor
      · intro hmem
        exact h (List.mem_filter.mp hmem).2
      · exact List.mem_map.mpr ⟨r, List.mem_filter.mpr ⟨hr, by simp [h]⟩, rfl⟩

/-- The three-record example of the spec: `seq1`/`ACDEFG`, `seq2`/`ACDXFG`,
`seq3`/`ACDEFG` (descriptions equal to the identifiers, as for a bare FASTA
header). -/
def exR1 : SeqRecord := ⟨"seq1".data, "seq1".data, "ACDEFG".data⟩

def exR2 : SeqRecord := ⟨"seq2".data, "seq2".data, "ACDXFG".data⟩

def exR3 : SeqRecord := ⟨"seq3".data, "seq3".data, "ACDEFG".data⟩

def exRecords : List SeqRecord := [exR1, exR2, exR3]

/-- Witness for C1 at the concrete three-record batch. -/
theorem process_chunk_partition_witness :
    ((process_chunk exRecords standardAA).1.length
        + (process_chunk exRecords standardAA).2.length = exRecords.length)
    ∧ ((exR2 ∈ (process_chunk exRecords standardAA).1
          ∧ removedEntry exR2 ∉ (process_chunk exRecords standardAA).2)
       ∨ (exR2 ∉ (process_chunk exRecords standardAA).1
          ∧ removedEntry exR2 ∈ (process_chunk exRecords standardAA).2)) :=
  ⟨(process_chunk_partition exRecords standardAA).1,
   (process_chunk_partition exRecords standardAA).2 exR2 (by decide)⟩

/-- C2. A record of a batch is kept iff every character of its upper-cased
sequence belongs to the configured alphabet (the test is case-insensitive
via the uppercasing); otherwise its `(id, upper-cased sequence)` pair is
removed. The batch is arbitrary, so the outcome does not depend on the
chunk size or on which batch the record lands in; a kept record appears
verbatim (the record itself, original case) in the kept list. -/
theorem process_chunk_classification (aa : List Char) (batch : List SeqRecord)
    (r : SeqRecord) (h : r ∈ batch) :
    (r ∈ (process_chunk batch aa).1 ↔ ∀ c ∈ pyUpper r.seq, c ∈ aa)
    ∧ (removedEntry r ∈ (process_chunk batch aa).2
        ↔ ¬ ∀ c ∈ pyUpper r.seq, c ∈ aa) := by
  rw [process_chunk_eq]
  constructor
  · constructor
    · intro hmem
      exact (keepB_iff aa r).mp (List.mem_filter.mp hmem).2
    · intro hall
      exact List.mem_filter.mpr ⟨h, (keepB_iff aa r).mpr hall⟩
  · constructor
    · intro hmem hall
      rcases List.mem_map.mp hmem with ⟨r', hr', hent⟩
      rcases List.mem_filter.mp hr' with ⟨_, hker'⟩
      have hseq : pyUpper r'.seq = pyUpper r.seq := congrArg Prod.snd hent
      rw [keepB_congr aa r' r hseq, (keepB_iff aa r).mpr hall] at hker'
      exact absurd hker' (by simp)
    · intro hnall
      refine List.mem_map.mpr ⟨r, List.mem_filter.mpr ⟨h, ?_⟩, rfl⟩
      have : ¬ keepB aa r = true := fun hk => hnall ((keepB_iff aa r).mp hk)
      simp [Bool.not_eq_true] at this
      simp [this]

/-- Witness for C2 at the concrete three-record batch and record `seq2`. -/
theorem process_chunk_classification_witness :
    (exR2 ∈ (process_chunk exRecords standardAA).1
        ↔ ∀ c ∈ pyUpper exR2.seq, c ∈ standardAA)
    ∧ (removedEntry exR2 ∈ (process_chunk exRecords standardAA).2
        ↔ ¬ ∀ c ∈ pyUpper exR2.seq, c ∈ standardAA) :=
  process_chunk_classification standardAA exRecords exR2 (by decide)

/-- C9. A record with the empty sequence is kept by the alphabet filter for
every alphabet, the empty one included: every character of the empty
upper-cased sequence vacuously belongs to the allowed set. -/
theorem empty_sequence_always_kept (aa : List Char) (batch : List SeqRecord)
    (r : SeqRecord) (hmem : r ∈ batch) (hseq : r.seq = []) :
    r ∈ (process_chunk batch aa).1 := by
  rw [process_chunk_eq]
  exact List.mem_filter.mpr ⟨hmem, by simp [keepB, pyUpper, hseq]⟩

/-- A record with the empty sequence, for the C9 witness. -/
def exEmptySeq : SeqRecord := ⟨"e1".data, "e1".data, []⟩

/-- Witness for C9 at the empty alphabet and a singleton batch. -/
theorem empty_sequence_always_kept_witness :
    exEmptySeq ∈ (process_chunk [exEmptySeq] []).1 :=
  empty_sequence_always_kept [] [exEmptySeq] exEmptySeq (by decide) rfl

/-- The chunking loop of lines 63-71: records are accumulated into `chunk`;
as soon as the accumulated batch reaches the configured chunk size it is
submitted and a new batch is started; a final non-empty undersized batch is
submitted after the stream ends (`if chunk:` on line 70). The first
argument of the recursion is the batch accumulated so far. -/
def buildChunks (chunkSize : Nat) : List SeqRecord → List SeqRecord → List (List SeqRecord)
  | chunk, [] => if chunk.isEmpty then [] else [chunk]
  | chunk, r :: rs =>
    let chunk' := chunk ++ [r]
    if chunkSize ≤ chunk'.length then chunk' :: buildChunks chunkSize [] rs
    else buildChunks chunkSize chunk' rs

/-- The accumulation loop of lines 73-76: consume completed batches in
completion order, adding `len(kept)` to `total_kept` and `len(removed)` to
`total_removed`. -/
def collectTotals : List (List SeqRecord) → List Char → Nat × Nat → Nat × Nat
  | [], _, t => t
  | ch :: rest, aa, t =>
    let res := process_chunk ch aa
    collectTotals rest aa (t.1 + res.1.length, t.2 + res.2.length)

/-- The kept records of a run, in completion order of the batches: each
batch's kept list is written to a temp file (lines 78-82) and the temp
files are concatenated in that order into the stage-1 output
(lines 89-93). -/
def keptAll (completed : List (List SeqRecord)) (aa : List Char) : List SeqRecord :=
  (completed.map (fun ch => (process_chunk ch aa).1)).flatten

/-- The removed `(id, upper-cased sequence)` pairs of a run, in completion
order of the batches (lines 84-87). -/
def removedAll (completed : List (List SeqRecord)) (aa : List Char) : List (Str × Str) :=
  (completed.map (fun ch => (process_chunk ch aa).2)).flatten

/-- Concatenating the chunks built by the buffering loop restores the
accumulated batch followed by the remaining input stream. -/
theorem flatten_buildChunks (chunkSize : Nat) (l chunk : List SeqRecord) :
    (buildChunks chunkSize chunk l).flatten = chunk ++ l := by
  induction l generalizing chunk with
  | nil =>
    by_cases h : chunk.isEmpty
    · simp [buildChunks, h, List.isEmpty_iff.mp h]
    · simp [buildChunks, h]
  | cons r rs ih =>
    by_cases h : chunkSize ≤ chunk.length + 1
    · simp [buildChunks, h, ih]
    · simp [buildChunks, h, ih]

/-- A permutation of an outer list induces a permutation of its
concatenation. -/
theorem perm_flatten {α : Type} {l₁ l₂ : List (List α)} (h : l₁.Perm l₂) :
    l₁.flatten.Perm l₂.flatten := by
  induction h with
  | nil => exact List.Perm.refl _
  | cons x _ ih => exact ih.append_left x
  | swap x y l =>
    simp only [List.flatten_cons]
    rw [← List.append_assoc, ← List.append_assoc]
    exact (List.perm_append_comm.append_right _)
  | trans _ _ ih₁ ih₂ => exact ih₁.trans ih₂

/-- The kept records of a run are the alphabet-passing records of the
concatenated batches, in that order. -/
theorem keptAll_eq (completed : List (List SeqRecord)) (aa : List Char) :
    keptAll completed aa = completed.flatten.filter (fun r => keepB aa r) := by
  induction completed with
  | nil => rfl
  | cons ch rest ih =>
    simp only [keptAll, List.map_cons, List.flatten_cons] at ih ⊢
    rw [process_chunk_eq]
    simp [List.filter_append, ih]

/-- The removed pairs of a run are the images of the alphabet-failing
records of the concatenated batches, in that order. -/
theorem removedAll_eq (completed : List (List SeqRecord)) (aa : List Char) :
    removedAll completed aa
      = (completed.flatten.filter (fun r => !keepB aa r)).map removedEntry := by
  induction completed with
  | nil => rfl
  | cons ch rest ih =>
    simp only [removedAll, List.map_cons, List.flatten_cons] at ih ⊢
    rw [process_chunk_eq]
    simp [List.filter_append, ih]

/-- The totals accumulated by the collection loop are the lengths of the
run's kept and removed lists, on top of the starting totals. -/
theorem collectTotals_eq (completed : List (List SeqRecord)) (aa : List Char)
    (a b : Nat) :
    collectTotals completed aa (a, b)
      = (a + (keptAll completed aa).length, b + (removedAll completed aa).length) := by
  induction completed generalizing a b with
  | nil => simp [collectTotals, keptAll, removedAll]
  | cons ch rest ih =>
    show collectTotals rest aa
        (a + (process_chunk ch aa).1.length, b + (process_chunk ch aa).2.length)
      = _
    rw [ih]
    simp only [keptAll, removedAll, List.map_cons, List.flatten_cons,
      List.length_append, Prod.mk.injEq]
    constructor <;> omega

/-- For any completion order of the batches built with any chunk size, the
kept records of the run are a permutation of the alphabet-passing records
of the input. -/
theorem keptAll_run_perm (records : List SeqRecord) (aa : List Char) (c : Nat)
    (completed : List (List SeqRecord))
    (hp : completed.Perm (buildChunks c [] records)) :
    (keptAll completed aa).Perm (records.filter (fun r => keepB aa r)) := by
  have h1 : (keptAll completed aa).Perm (keptAll (buildChunks c [] records) aa) :=
    perm_flatten (hp.map _)
  have h2 : keptAll (buildChunks c [] records) aa
      = records.filter (fun r => keepB aa r) := by
    rw [keptAll_eq, flatten_buildChunks, List.nil_append]
  rw [h2] at h1
  exact h1

/-- For any completion order of the batches built with any chunk size, the
removed pairs of the run are a permutation of the images of the
alphabet-failing records of the input. -/
theorem removedAll_run_perm (records : List SeqRecord) (aa : List Char) (c : Nat)
    (completed : List (List SeqRecord))
    (hp : completed.Perm (buildChunks c [] records)) :
    (removedAll completed aa).Perm
      ((records.filter (fun r => !keepB aa r)).map removedEntry) := by
  have h1 : (removedAll completed aa).Perm
      (removedAll (buildChunks c [] records) aa) := perm_flatten (hp.map _)
  have h2 : removedAll (buildChunks c [] records) aa
      = (records.filter (fun r => !keepB aa r)).map removedEntry := by
    rw [removedAll_eq, flatten_buildChunks, List.nil_append]
  rw [h2] at h1
  exact h1

/-- C3. For a fixed input and alphabet, running the chunked dispatch with
any two positive chunk sizes — and under any completion orders of the
batches, as `as_completed` yields them — produces the same final
`(total_kept, total_removed)` counters and the same set-membership
partition into kept records and removed pairs; only batching and output
order may differ. -/
theorem dispatch_chunk_size_invariant (records : List SeqRecord) (aa : List Char)
    (c₁ c₂ : Nat) (completed₁ completed₂ : List (List SeqRecord))
    (_hc₁ : 0 < c₁) (_hc₂ : 0 < c₂)
    (hp₁ : completed₁.Perm (buildChunks c₁ [] records))
    (hp₂ : completed₂.Perm (buildChunks c₂ [] records)) :
    collectTotals completed₁ aa (0, 0) = collectTotals completed₂ aa (0, 0)
    ∧ (∀ r, r ∈ keptAll completed₁ aa ↔ r ∈ keptAll completed₂ aa)
    ∧ (∀ p, p ∈ removedAll completed₁ aa ↔ p ∈ removedAll completed₂ aa) := by
  have k₁ := keptAll_run_perm records aa c₁ completed₁ hp₁
  have k₂ := keptAll_run_perm records aa c₂ completed₂ hp₂
  have m₁ := removedAll_run_perm records aa c₁ completed₁ hp₁
  have m₂ := removedAll_run_perm records aa c₂ completed₂ hp₂
  refine ⟨?_, ?_, ?_⟩
  · rw [collectTotals_eq, collectTotals_eq, k₁.length_eq, k₂.length_eq,
      m₁.length_eq, m₂.length_eq]
  · intro r
    rw [k₁.mem_iff, k₂.mem_iff]
  · intro p
    rw [m₁.mem_iff, m₂.mem_iff]

/-- Witness for C3: the three-record input with chunk sizes 2 and 3, the
first run consumed with its two batches completing out of submission
order. -/
theorem dispatch_chunk_size_invariant_witness :
    collectTotals [[exR3], [exR1, exR2]] standardAA (0, 0)
        = collectTotals [[exR1, exR2, exR3]] standardAA (0, 0)
    ∧ (∀ r, r ∈ keptAll [[exR3], [exR1, exR2]] standardAA
          ↔ r ∈ keptAll [[exR1, exR2, exR3]] standardAA)
    ∧ (∀ p, p ∈ removedAll [[exR3], [exR1, exR2]] standardAA
          ↔ p ∈ removedAll [[exR1, exR2, exR3]] standardAA) :=
  dispatch_chunk_size_invariant exRecords standardAA 2 3
    [[exR3], [exR1, exR2]] [[exR1, exR2, exR3]]
    (by decide) (by decide) (by decide) (by decide)

/-- C4. The end-to-end stage-1 scenario: the three records `seq1`/`ACDEFG`,
`seq2`/`ACDXFG`, `seq3`/`ACDEFG` with the default alphabet and chunk size 2
are batched as `[[seq1, seq2], [seq3]]`; with one worker the batches
complete in submission order, the filter keeps exactly `seq1` and `seq3`,
removes exactly `(seq2, "ACDXFG")`, and the final counters are
`total_kept = 2`, `total_removed = 1`. -/
theorem pipeline_step1_scenario :
    buildChunks 2 [] exRecords = [[exR1, exR2], [exR3]]
    ∧ collectTotals (buildChunks 2 [] exRecords) standardAA (0, 0) = (2, 1)
    ∧ keptAll (buildChunks 2 [] exRecords) standardAA = [exR1, exR3]
    ∧ removedAll (buildChunks 2 [] exRecords) standardAA
        = [("seq2".data, "ACDXFG".data)] := by
  refine ⟨rfl, rfl, rfl, rfl⟩

/-- One line of the removed-record report,
`report_handle.write(f"{rid}\t{seq}\n")` (line 87). -/
def reportLine (p : Str × Str) : Str := p.1 ++ '\t' :: (p.2 ++ ['\n'])

set_option linter.unusedVariables false in
/-- The report sink's content at the end of stage 1, as a function of its
content `prev` before the run: `with open(args.report, 'w'): pass`
(lines 52-53) truncates or creates the file at pipeline start, discarding
`prev`; lines 84-87 then append one line per removed pair, batch by batch
in completion order. -/
def runReport (prev : Str) (completed : List (List SeqRecord)) (aa : List Char) : Str :=
  completed.foldl
    (fun content ch => content ++ ((process_chunk ch aa).2.map reportLine).flatten)
    []

/-- Left folds that append are concatenations. -/
theorem foldl_append_eq {α : Type} (f : α → Str) (l : List α) (init : Str) :
    l.foldl (fun content x => content ++ f x) init = init ++ (l.map f).flatten := by
  induction l generalizing init with
  | nil => simp
  | cons x xs ih => simp [List.foldl_cons, ih]

/-- Concatenating the per-batch report text equals rendering all removed
pairs of the run in order. -/
theorem flatten_map_reportLines (completed : List (List SeqRecord)) (aa : List Char) :
    (completed.map (fun ch => ((process_chunk ch aa).2.map reportLine).flatten)).flatten
      = ((removedAll completed aa).map reportLine).flatten := by
  induction completed with
  | nil => rfl
  | cons ch rest ih =>
    simp only [List.map_cons, List.flatten_cons, removedAll, List.map_append,
      List.flatten_append] at ih ⊢
    rw [ih]

/-- The final report content is one `reportLine` per removed pair of the
run, concatenated in the order the pairs were produced. -/
theorem runReport_eq (prev : Str) (completed : List (List SeqRecord))
    (aa : List Char) :
    runReport prev completed aa
      = ((removedAll completed aa).map reportLine).flatten := by
  show (completed.foldl
      (fun content ch => content ++ ((process_chunk ch aa).2.map reportLine).flatten) [])
    = _
  rw [foldl_append_eq (fun ch => ((process_chunk ch aa).2.map reportLine).flatten)
      completed [], List.nil_append]
  exact flatten_map_reportLines completed aa

/-- C5. The report sink ends the run holding exactly one line
`"{identifier}\t{uppercased_sequence}\n"` per removed record — the removed
pairs of the run being exactly (a permutation of, per completion order) the
pairs of the input records failing the alphabet test — and its content is
independent of whatever the file held before the run, because the sink is
truncated/created fresh at pipeline start. -/
theorem report_complete (prev : Str) (records : List SeqRecord) (aa : List Char)
    (c : Nat) (completed : List (List SeqRecord))
    (hp : completed.Perm (buildChunks c [] records)) :
    runReport prev completed aa
        = ((removedAll completed aa).map reportLine).flatten
    ∧ (removedAll completed aa).Perm
        ((records.filter (fun r => !keepB aa r)).map removedEntry)
    ∧ ∀ prev₂, runReport prev completed aa = runReport prev₂ completed aa := by
  refine ⟨runReport_eq prev completed aa,
    removedAll_run_perm records aa c completed hp, ?_⟩
  intro prev₂
  rw [runReport_eq, runReport_eq]

/-- Witness for C5: the three-record input, chunk size 2, batches completing
in submission order, starting from a non-empty report file. -/
theorem report_complete_witness :
    runReport "stale".data (buildChunks 2 [] exRecords) standardAA
        = ((removedAll (buildChunks 2 [] exRecords) standardAA).map reportLine).flatten
    ∧ (removedAll (buildChunks 2 [] exRecords) standardAA).Perm
        ((exRecords.filter (fun r => !keepB standardAA r)).map removedEntry)
    ∧ ∀ prev₂, runReport "stale".data (buildChunks 2 [] exRecords) standardAA
        = runReport prev₂ (buildChunks 2 [] exRecords) standardAA :=
  report_complete "stale".data exRecords standardAA 2
    (buildChunks 2 [] exRecords) (List.Perm.refl _)

/-- The rewritten duplicate record of lines 137-139: after the counter for
`main_id` is incremented to `n`, the identifier becomes
`f"{main_id}_{id_count[main_id]}"` and the description is overwritten with
the new identifier; the sequence field is untouched. -/
def dupRenamed (r : SeqRecord) (n : Nat) : SeqRecord :=
  { r with id := r.id ++ '_' :: (Nat.repr n).data,
           description := r.id ++ '_' :: (Nat.repr n).data }

/-- The step-4 loop of lines 134-144: a single sequential pass over the
record stream, carrying the Python dict `id_count` (modelled as a function
from identifier to `Option Nat`, `none` meaning the key is absent). A first
occurrence stores `0` and passes the record through unchanged; a repeated
occurrence increments the stored counter to `n` and emits the record
renamed with the 1-based suffix `_{n}`. -/
def renameLoop : (Str → Option Nat) → List SeqRecord → List SeqRecord
  | _, [] => []
  | id_count, r :: rs =>
    match id_count r.id with
    | some n =>
      dupRenamed r (n + 1)
        :: renameLoop (fun k => if k = r.id then some (n + 1) else id_count k) rs
    | none =>
      r :: renameLoop (fun k => if k = r.id then some 0 else id_count k) rs

/-- The whole duplicate-ID renaming pass of step 4, starting from the empty
dict `id_count = {}` of line 132. -/
def renameDuplicates (records : List SeqRecord) : List SeqRecord :=
  renameLoop (fun _ => none) records

/-- The dict carried by the rename loop, expressed from the number of
occurrences of each identifier already consumed: absent if none seen,
otherwise the count of duplicates so far (occurrences minus one). -/
def cntOf (seen : Str → Nat) : Str → Option Nat :=
  fun k => if seen k = 0 then none else some (seen k - 1)

/-- Positional characterisation of the rename loop: the record at position
`i` of the output is the input record at `i`, renamed with suffix equal to
its total number of earlier occurrences (those consumed before the loop
plus those earlier in the list), or unchanged when that number is zero. -/
theorem renameLoop_getElem? (rs : List SeqRecord) (seen : Str → Nat) (i : Nat)
    (r : SeqRecord) (h : rs[i]? = some r) :
    (renameLoop (cntOf seen) rs)[i]? =
      some (if seen r.id + ((rs.take i).map SeqRecord.id).count r.id = 0 then r
            else dupRenamed r
              (seen r.id + ((rs.take i).map SeqRecord.id).count r.id)) := by
  induction rs generalizing seen i with
  | nil => simp at h
  | cons x xs ih =>
    cases i with
    | zero =>
      simp only [List.getElem?_cons_zero, Option.some.injEq] at h
      subst h
      by_cases hz : seen x.id = 0
      · simp [renameLoop, cntOf, hz]
      · have hc : cntOf seen x.id = some (seen x.id - 1) := by simp [cntOf, hz]
        simp only [renameLoop, hc, List.getElem?_cons_zero, List.take_zero,
          List.map_nil, List.count_nil, Nat.add_zero, Option.some.injEq]
        rw [if_neg hz]
        congr 1
        omega
    | succ j =>
      simp only [List.getElem?_cons_succ] at h
      have hs' : cntOf (fun k => if k = x.id then seen x.id + 1 else seen k)
          = fun k => if k = x.id then some (seen x.id) else cntOf seen k := by
        funext k
        by_cases hk : k = x.id
        · simp [cntOf, hk]
        · simp [cntOf, hk]
      have htail := ih (fun k => if k = x.id then seen x.id + 1 else seen k) j h
      simp only [] at htail
      have harith : (if r.id = x.id then seen x.id + 1 else seen r.id)
            + ((xs.take j).map SeqRecord.id).count r.id
          = seen r.id + (((x :: xs).take (j + 1)).map SeqRecord.id).count r.id := by
        rw [List.take_succ_cons, List.map_cons, List.count_cons]
        by_cases hk : r.id = x.id
        · simp only [hk, beq_self_eq_true, if_true, if_pos trivial]
          omega
        · have hbeq : (x.id == r.id) = false := by
            simp only [beq_eq_false_iff_ne, ne_eq]
            exact Ne.symm hk
          simp only [if_neg hk, hbeq, Bool.false_eq_true, if_false]
          omega
      rw [harith] at htail
      by_cases hz : seen x.id = 0
      · have hc : cntOf seen x.id = none := by simp [cntOf, hz]
        have hunf : renameLoop (cntOf seen) (x :: xs)
            = x :: renameLoop (fun k => if k = x.id then some 0 else cntOf seen k) xs := by
          simp only [renameLoop, hc]
        have hf : (fun k => if k = x.id then some 0 else cntOf seen k)
            = cntOf (fun k => if k = x.id then seen x.id + 1 else seen k) := by
          rw [hs', hz]
        rw [hunf, hf, List.getElem?_cons_succ]
        exact htail
      · have hc : cntOf seen x.id = some (seen x.id - 1) := by simp [cntOf, hz]
        have hunf : renameLoop (cntOf seen) (x :: xs)
            = dupRenamed x (seen x.id - 1 + 1)
              :: renameLoop
                (fun k => if k = x.id then some (seen x.id - 1 + 1) else cntOf seen k) xs := by
          simp only [renameLoop, hc]
        have hone : seen x.id - 1 + 1 = seen x.id := by omega
        have hf : (fun k => if k = x.id then some (seen x.id - 1 + 1) else cntOf seen k)
            = cntOf (fun k => if k = x.id then seen x.id + 1 else seen k) := by
          rw [hs', hone]
        rw [hunf, hf, List.getElem?_cons_succ]
        exact htail

/-- The rename pass from the empty dict of line 132: the output record at
position `i` is the input record there, renamed with a suffix equal to the
number of earlier occurrences of its identifier, or unchanged if it is the
first occurrence. -/
theorem renameDuplicates_getElem? (records : List SeqRecord) (i : Nat)
    (r : SeqRecord) (h : records[i]? = some r) :
    (renameDuplicates records)[i]? =
      some (if ((records.take i).map SeqRecord.id).count r.id = 0 then r
            else dupRenamed r (((records.take i).map SeqRecord.id).count r.id)) := by
  have hz : (fun _ : Str => (none : Option Nat)) = cntOf (fun _ => 0) := by
    funext k
    simp [cntOf]
  rw [renameDuplicates, hz, renameLoop_getElem? records (fun _ => 0) i r h]
  simp

/-- Five records whose identifiers are `A, B, A, A, C`, with distinct
sequences, for the duplicate-rename scenario. -/
def dA1 : SeqRecord := ⟨"A".data, "A".data, "MKV".data⟩

def dB1 : SeqRecord := ⟨"B".data, "B".data, "MKW".data⟩

def dA2 : SeqRecord := ⟨"A".data, "A".data, "MKX".data⟩

def dA3 : SeqRecord := ⟨"A".data, "A".data, "MKY".data⟩

def dC1 : SeqRecord := ⟨"C".data, "C".data, "MKZ".data⟩

def exDup : List SeqRecord := [dA1, dB1, dA2, dA3, dC1]

/-- C6. In the duplicate-ID renaming pass the first occurrence of each
identifier is left unchanged and the n-th subsequent duplicate is rewritten
to `"{original}_{n}"` with a 1-based suffix (the record at position `i` is
renamed with suffix equal to its number of earlier same-identifier
occurrences); in particular identifiers `[A, B, A, A, C]` come out as
`[A, B, A_1, A_2, C]`. -/
theorem rename_duplicate_ids :
    (∀ (records : List SeqRecord) (i : Nat) (r : SeqRecord),
        records[i]? = some r →
        (renameDuplicates records)[i]? =
          some (if ((records.take i).map SeqRecord.id).count r.id = 0 then r
                else dupRenamed r (((records.take i).map SeqRecord.id).count r.id)))
    ∧ (renameDuplicates exDup).map SeqRecord.id
        = ["A".data, "B".data, "A_1".data, "A_2".data, "C".data] :=
  ⟨renameDuplicates_getElem?, by decide⟩

/-- Witness for C6 at the third record (the first duplicate of `A`). -/
theorem rename_duplicate_ids_witness :
    (renameDuplicates exDup)[2]? =
      some (if ((exDup.take 2).map SeqRecord.id).count dA2.id = 0 then dA2
            else dupRenamed dA2 (((exDup.take 2).map SeqRecord.id).count dA2.id)) :=
  rename_duplicate_ids.1 exDup 2 dA2 (by decide)

/-- C10. Frame condition of the rename pass: a first-occurrence record
passes through with all fields unchanged, while a renamed duplicate has
exactly its identifier and description rewritten — the description is
overwritten with the new identifier, discarding the original description —
and its sequence unchanged. -/
theorem rename_frame_condition (records : List SeqRecord) (i : Nat)
    (r : SeqRecord) (h : records[i]? = some r) :
    (((records.take i).map SeqRecord.id).count r.id = 0 →
        (renameDuplicates records)[i]? = some r)
    ∧ ∀ occ, ((records.take i).map SeqRecord.id).count r.id = occ → occ ≠ 0 →
        (renameDuplicates records)[i]? =
          some { id := r.id ++ '_' :: (Nat.repr occ).data,
                 description := r.id ++ '_' :: (Nat.repr occ).data,
                 seq := r.seq } := by
  constructor
  · intro hz
    rw [renameDuplicates_getElem? records i r h, if_pos hz]
  · intro occ hocc hne
    rw [renameDuplicates_getElem? records i r h, hocc, if_neg hne]
    rfl

/-- Witness for C10 at the fourth record (the second duplicate of `A`). -/
theorem rename_frame_condition_witness :
    (((exDup.take 3).map SeqRecord.id).count dA3.id = 0 →
        (renameDuplicates exDup)[3]? = some dA3)
    ∧ ∀ occ, ((exDup.take 3).map SeqRecord.id).count dA3.id = occ → occ ≠ 0 →
        (renameDuplicates exDup)[3]? =
          some { id := dA3.id ++ '_' :: (Nat.repr occ).data,
                 description := dA3.id ++ '_' :: (Nat.repr occ).data,
                 seq := dA3.seq } :=
  rename_frame_condition exDup 3 dA3 (by decide)

/-- The collection loop of lines 73-76 over fallible futures: each entry of
the list is the outcome of one `future` in completion order — either the
partition result of `process_chunk`, or the exception (modelled by its
message string) the worker raised. `future.result()` re-raises that
exception, so the loop aborts at the first erroring future, discarding the
accumulated totals; otherwise it accumulates totals as in `collectTotals`. -/
def collectLoop :
    List (Except Str (List SeqRecord × List (Str × Str))) → Nat × Nat →
      Except Str (Nat × Nat)
  | [], t => .ok t
  | .error e :: _, _ => .error e
  | .ok res :: rest, t => collectLoop rest (t.1 + res.1.length, t.2 + res.2.length)

/-- The outcomes of the workers of one run in completion order, in which the
worker on the batch at position `failIdx` raises an exception with message
`msg` and every other worker returns `process_chunk` of its batch. -/
def workerResults (completed : List (List SeqRecord)) (aa : List Char)
    (failIdx : Nat) (msg : Str) :
    List (Except Str (List SeqRecord × List (Str × Str))) :=
  match completed, failIdx with
  | [], _ => []
  | _ :: rest, 0 =>
    .error msg :: rest.map (fun ch => .ok (process_chunk ch aa))
  | ch :: rest, n + 1 =>
    .ok (process_chunk ch aa) :: workerResults rest aa n msg

/-- A dispatch run in which one worker fails: the collection loop of
lines 73-76 applied to `workerResults`, starting from zero totals. -/
def dispatchWithFailure (completed : List (List SeqRecord)) (aa : List Char)
    (failIdx : Nat) (msg : Str) : Except Str (Nat × Nat) :=
  collectLoop (workerResults completed aa failIdx msg) (0, 0)

/-- Whatever totals have been accumulated, a run whose `failIdx`-th batch
fails ends in the worker's error. -/
theorem collectLoop_workerResults (completed : List (List SeqRecord))
    (aa : List Char) (failIdx : Nat) (msg : Str) (t : Nat × Nat)
    (h : failIdx < completed.length) :
    collectLoop (workerResults completed aa failIdx msg) t = .error msg := by
  induction completed generalizing failIdx t with
  | nil => simp at h
  | cons ch rest ih =>
    cases failIdx with
    | zero => rfl
    | succ n =>
      show collectLoop (workerResults rest aa n msg) _ = _
      exact ih n _ (by simpa using h)

/-- C7 counterexample: a run whose first batch (starting offset 0) fails
and a run whose second batch (starting offset 2) fails produce the very
same outcome — the worker's own exception, re-raised unchanged by
`future.result()` — so the dispatcher's error cannot identify the failing
batch's starting offset or index, and the code defines no `WorkerError`
carrying one. -/
theorem dispatch_error_offset_indistinguishable :
    dispatchWithFailure [[exR1, exR2], [exR3]] standardAA 0 "boom".data
      = dispatchWithFailure [[exR1, exR2], [exR3]] standardAA 1 "boom".data
    ∧ (0 : Nat) ≠ 1 :=
  ⟨rfl, by decide⟩

/-- C7 amended: if any worker's filter invocation on a batch fails, the
dispatcher fails the entire run by re-raising that worker's exception —
no partial totals are returned, so partial results are not silently
dropped — but the propagated error is the worker's exception unchanged,
not a `WorkerError` identifying the failing batch's starting offset. -/
theorem dispatch_propagates_worker_exception (completed : List (List SeqRecord))
    (aa : List Char) (failIdx : Nat) (msg : Str)
    (h : failIdx < completed.length) :
    dispatchWithFailure completed aa failIdx msg = .error msg :=
  collectLoop_workerResults completed aa failIdx msg (0, 0) h

/-- Witness for the amended C7 at a concrete two-batch run failing on the
second batch. -/
theorem dispatch_propagates_worker_exception_witness :
    dispatchWithFailure [[exR1, exR2], [exR3]] standardAA 1 "boom".data
      = .error "boom".data :=
  dispatch_propagates_worker_exception [[exR1, exR2], [exR3]] standardAA 1
    "boom".data (by decide)

/-- The files the pipeline writes: the removed-record report and the final
output. `none` models a file that does not exist; the output file is
tracked at record granularity. -/
structure PipelineFiles where
  report : Option Str
  output : Option (List SeqRecord)
deriving DecidableEq, Repr

/-- The fatal error category raised when the source file is missing,
unreadable, or malformed (`SeqIO.parse` raising on line 64). -/
inductive PipelineError where
  | inputError : PipelineError
deriving DecidableEq, Repr

/-- The observable file effects of `main`. Lines 52-53
(`with open(args.report, 'w'): pass`) create/truncate the report file
first; only afterwards does the loop on line 64 iterate
`SeqIO.parse(args.input, "fasta")`, which raises on a missing, unreadable
or malformed source (modelled as `input = none`), aborting `main` with a
non-zero process exit before any record is processed and before anything
is written to the output. On a good input the stage-1 dispatch runs as
modelled by `buildChunks`/`process_chunk`, the report receives one line per
removed pair, and — on the `--skip-length --skip-cdhit` path, steps 2 and 3
bypassed — the output receives the duplicate-renamed kept records. -/
def runPipeline (input : Option (List SeqRecord)) (aa : List Char)
    (chunkSize : Nat) (fs : PipelineFiles) :
    Except (PipelineError × PipelineFiles) PipelineFiles :=
  let fs₁ : PipelineFiles := { fs with report := some [] }
  match input with
  | none => .error (.inputError, fs₁)
  | some records =>
    let chunks := buildChunks chunkSize [] records
    .ok { report := some (runReport [] chunks aa),
          output := some (renameDuplicates (keptAll chunks aa)) }

/-- C8 counterexample: with the source file missing and the report file
still holding a line from an earlier run, the run aborts with the input
error — but the report file has already been truncated to empty, so the
pre-existing state is not left unchanged, contrary to the claim. -/
theorem missing_input_truncates_report :
    runPipeline none standardAA 50000
        { report := some "old line".data, output := none }
      = .error (.inputError, { report := some [], output := none })
    ∧ ({ report := some [], output := none } : PipelineFiles)
      ≠ { report := some "old line".data, output := none } :=
  ⟨rfl, by decide⟩

/-- C8 amended: if the source file is missing, unreadable, or malformed,
the run fails with the input error before any record is processed and
terminates with non-zero exit status, producing no output file and no
report content — but the report sink has already been created/truncated to
empty at pipeline start, so the report file's previous content is not
preserved (the rest of the state is unchanged). -/
theorem missing_input_aborts_after_truncation (aa : List Char)
    (chunkSize : Nat) (fs : PipelineFiles) :
    runPipeline none aa chunkSize fs
      = .error (.inputError, { fs with report := some [] }) := rfl
